import Mathlib

/-!
# Verification of the lock-free binary tree container (`src/binarytree.rs`)

Two layers are embedded here.

* `LFTree.Code` is the faithful shallow embedding of the Rust source as it
  stands: `Tree` plays the role of a (possibly null) `*mut Node<T>` — `nil`
  is the null pointer, `node data left right` is a `Node` whose `data` slot
  is always populated.  Panics (`assert!` failures and `todo!()`) are made
  explicit with `Except Fault`.  Note that the source's `relaxed_search`
  performs a single comparison step (it contains no loop and no recursion),
  computes `node_data.cmp(to_find)` (node value on the left), and `find`
  passes the root pointer to `relaxed_search` without a null check.

* `LFTree.Model` holds the operations whose bodies are missing from the
  source (`push` on a non-empty tree and `delete` are `todo!()`), modelled
  from the specification: tombstone-aware search walker, insert and the
  two-phase delete, in a sequential setting where every compare-and-swap
  succeeds.
-/

namespace LFTree

/-- Three-way comparison, the embedding of Rust's `Ord::cmp`:
`cmp3 a b = .lt` exactly when `a < b`. -/
def cmp3 {T : Type} [LinearOrder T] (a b : T) : Ordering :=
  if a < b then .lt else if a = b then .eq else .gt

theorem cmp3_eq_lt {T : Type} [LinearOrder T] {a b : T} :
    cmp3 a b = .lt ↔ a < b := by
  unfold cmp3
  split_ifs with h1 h2
  · simpa using h1
  · simpa using h1
  · simpa using h1

theorem cmp3_eq_eq {T : Type} [LinearOrder T] {a b : T} :
    cmp3 a b = .eq ↔ a = b := by
  unfold cmp3
  split_ifs with h1 h2
  · simpa using ne_of_lt h1
  · simp [h2]
  · simpa using h2

theorem cmp3_eq_gt {T : Type} [LinearOrder T] {a b : T} :
    cmp3 a b = .gt ↔ b < a := by
  unfold cmp3
  split_ifs with h1 h2
  · simpa using lt_asymm h1
  · simp [h2]
  · simpa using lt_of_le_of_ne (not_lt.mp h1) (Ne.symm h2)

namespace Code

/-- Explicit panic causes: the `assert!(!current.is_null())` at the top of
`relaxed_search`, and the `todo!()` bodies (`push` on a non-empty tree,
`delete`). -/
inductive Fault where
  | assertNullCurrent : Fault
  | todoUnimplemented : Fault
deriving DecidableEq, Repr

/-- The embedding of a (possibly null) `*mut Node<T>`: `nil` is the null
pointer; `node data left right` is a `Node<T>` with its `data` slot (always
populated, per the source's own assertion) and its two child pointers. -/
inductive Tree (T : Type) where
  | nil : Tree T
  | node (data : T) (left : Tree T) (right : Tree T) : Tree T
deriving DecidableEq, Repr

/-- `data` slot of a node, `none` for the null pointer. -/
def dataOf {T : Type} : Tree T → Option T
  | .nil => none
  | .node d _ _ => some d

/-- `left` child slot of a node, `none` for the null pointer. -/
def leftOf {T : Type} : Tree T → Option (Tree T)
  | .nil => none
  | .node _ l _ => some l

/-- `right` child slot of a node, `none` for the null pointer. -/
def rightOf {T : Type} : Tree T → Option (Tree T)
  | .nil => none
  | .node _ _ r => some r

/-- Embedding of `LockFreeBinaryTree::relaxed_search` exactly as written:
assert the current pointer is non-null, load the node's data, compute
`node_data.cmp(to_find)` (note the node's value is the LEFT argument of
`cmp`), load the left child on `Less`, the right child on `Greater`, null on
`Equal`; if the loaded pointer is null return `(current, ordering)`,
otherwise return `(new_current, ordering)`.  There is no loop: the function
takes at most one step down the tree. -/
def relaxed_search {T : Type} [LinearOrder T] (current : Tree T) (to_find : T) :
    Except Fault (Tree T × Ordering) :=
  match current with
  | .nil => .error .assertNullCurrent
  | .node data l r =>
    let ordering := cmp3 data to_find
    let new_current : Tree T :=
      match ordering with
      | .lt => l
      | .gt => r
      | .eq => .nil
    match new_current with
    | .nil => .ok (.node data l r, ordering)
    | .node d' l' r' => .ok (.node d' l' r', ordering)

/-- Embedding of `LockFreeBinaryTree::new`: the root slot starts null. -/
def new {T : Type} : Tree T := .nil

/-- Embedding of `LockFreeBinaryTree::find`: load the root and hand it to
`relaxed_search` (with no null check), then wrap the returned node pointer
in a `DerefGuard` — here the guard is simply the node itself.  The ordering
component is discarded, and the guard is returned whether or not the node's
value equals the argument. -/
def find {T : Type} [LinearOrder T] (t : Tree T) (item : T) :
    Except Fault (Tree T) :=
  (relaxed_search t item).map (fun p => p.1)

/-- Embedding of `LockFreeBinaryTree::delete`, whose body is `todo!()`:
every call panics. -/
def delete {T : Type} (_t : Tree T) (_item : T) : Except Fault Bool :=
  .error .todoUnimplemented

/-- State-passing form of `find`: the tree (root slot plus the whole node
graph) is threaded through explicitly.  The source performs only atomic
loads in `find`/`relaxed_search`, so the state component is returned as it
was received. -/
def findSt {T : Type} [LinearOrder T] (t : Tree T) (item : T) :
    Except Fault (Tree T) × Tree T :=
  (find t item, t)

/-- `isSubtree s t`: the node `s` is a node of the graph reachable from
`t` (pointer-wise, `s` is one of `t`'s subtrees). -/
def isSubtree {T : Type} [DecidableEq T] (s t : Tree T) : Bool :=
  match t with
  | .nil => decide (s = Tree.nil)
  | .node d l r => decide (s = Tree.node d l r) || isSubtree s l || isSubtree s r

end Code

namespace Model

/-- Modelled from the spec: missing from the source is the node's per-node
deletion marker (§3, §4.1) — the source `Node<T>` has only `data`, `left`
and `right`, since `delete` is `todo!()`.  `STree` is the node graph with
the `live` flag (`live = false` means tombstoned); `nil` is the empty child
slot / empty root. -/
inductive STree (T : Type) where
  | nil : STree T
  | node (data : T) (live : Bool) (left : STree T) (right : STree T) : STree T
deriving DecidableEq, Repr

/-- All values stored in the tree, tombstoned nodes included, in in-order. -/
def vals {T : Type} : STree T → List T
  | .nil => []
  | .node d _ l r => vals l ++ d :: vals r

/-- Values of the live (non-tombstoned) nodes, in in-order. -/
def liveValues {T : Type} : STree T → List T
  | .nil => []
  | .node d live l r =>
      liveValues l ++ ((if live then [d] else []) ++ liveValues r)

/-- `true` iff some live node holds a value equal to `v`. -/
def containsLive {T : Type} [DecidableEq T] (t : STree T) (v : T) : Bool :=
  decide (v ∈ liveValues t)

/-- Modelled from the spec: the insert protocol (§4.3) composed with the
search walker (§4.2), in the sequential model where every compare-and-swap
succeeds; the source's `push` reaches `todo!()` whenever the root is
non-empty.  The walk is inlined into the recursion: compare the target to
the current node's value; on less-than descend left, on greater-than
descend right; on equal, a live node means `DuplicateValue` (return
`false`), while a tombstoned node is treated as not-found and the walk
continues descending on the tombstoned node's position (the right child —
the spec leaves the side unspecified, and the non-less branch descends
right).  When the required child slot is empty the new live node is linked
there. -/
def insert {T : Type} [LinearOrder T] : STree T → T → STree T × Bool
  | .nil, v => (.node v true .nil .nil, true)
  | .node d live l r, v =>
    match cmp3 v d with
    | .lt =>
      let p := insert l v
      (.node d live p.1 r, p.2)
    | .gt =>
      let p := insert r v
      (.node d live l p.1, p.2)
    | .eq =>
      if live then (.node d live l r, false)
      else
        let p := insert r v
        (.node d live l p.1, p.2)

/-- Modelled from the spec: the two-phase delete protocol (§4.5) composed
with the search walker (§4.2), in the sequential model; the source `delete`
is `todo!()`.  The walk locates a live node with an equal value (descending
right past tombstoned equal nodes, as in `insert`).  Phase one tombstones
the located node; phase two unlinks it immediately when it has at most one
child (the parent's slot takes the single child, or empty), and otherwise
leaves it tombstoned-but-linked (unlinking deferred).  When no live equal
node exists, the result is `NotFound` (`false`). -/
def delete {T : Type} [LinearOrder T] : STree T → T → STree T × Bool
  | .nil, _ => (.nil, false)
  | .node d live l r, v =>
    match cmp3 v d with
    | .lt =>
      let p := delete l v
      (.node d live p.1 r, p.2)
    | .gt =>
      let p := delete r v
      (.node d live l p.1, p.2)
    | .eq =>
      if live then
        match l, r with
        | .nil, _ => (r, true)
        | .node dl ll l1 r1, .nil => (.node dl ll l1 r1, true)
        | .node _ _ _ _, .node _ _ _ _ => (.node d false l r, true)
      else
        let p := delete r v
        (.node d live l p.1, p.2)

/-- The ordering invariant the completed design maintains: every value in a
node's left subtree is strictly less than the node's value; every value in
its right subtree is strictly greater, except that a tombstoned node may
carry an equal value in its right subtree (a reinsertion below a logically
deleted duplicate). -/
def bst {T : Type} [LinearOrder T] : STree T → Bool
  | .nil => true
  | .node d live l r =>
      ((vals l).all fun x => decide (x < d)) &&
      ((vals r).all fun x => decide (d < x) || (decide (x = d) && !live)) &&
      (bst l && bst r)

/-- The ordering invariant exactly as the claim states it: left subtree
values strictly less, right subtree values strictly greater, with no
exception for tombstoned nodes. -/
def strictBst {T : Type} [LinearOrder T] : STree T → Bool
  | .nil => true
  | .node d _ l r =>
      ((vals l).all fun x => decide (x < d)) &&
      ((vals r).all fun x => decide (d < x)) &&
      (strictBst l && strictBst r)

/-- A public operation of the container. -/
inductive Op (T : Type) where
  | insert (v : T) : Op T
  | find (v : T) : Op T
  | delete (v : T) : Op T
deriving DecidableEq, Repr

/-- The tree state after one public operation: `insert` and `delete` yield
their updated tree; `find` runs the walker only (no mutation, §4.2/§4.4)
so the state is unchanged. -/
def applyOp {T : Type} [LinearOrder T] (t : STree T) : Op T → STree T
  | .insert v => (insert t v).1
  | .find _ => t
  | .delete v => (delete t v).1

/-- The tree reached from a fresh (empty) container by a sequence of
public operations. -/
def run {T : Type} [LinearOrder T] (ops : List (Op T)) : STree T :=
  ops.foldl applyOp .nil

theorem vals_node {T : Type} {d : T} {live : Bool} {l r : STree T} :
    vals (STree.node d live l r) = vals l ++ d :: vals r := rfl

theorem mem_liveValues_node {T : Type} {x d : T} {live : Bool} {l r : STree T} :
    x ∈ liveValues (STree.node d live l r) ↔
      x ∈ liveValues l ∨ (live = true ∧ x = d) ∨ x ∈ liveValues r := by
  cases live <;> simp [liveValues]

theorem liveValues_subset_vals {T : Type} (t : STree T) (x : T) :
    x ∈ liveValues t → x ∈ vals t := by
  induction t with
  | nil => simp [liveValues, vals]
  | node d live l r ihl ihr =>
    intro h
    rw [mem_liveValues_node] at h
    rw [vals_node]
    simp only [List.mem_append, List.mem_cons]
    rcases h with h | h | h
    · exact Or.inl (ihl h)
    · exact Or.inr (Or.inl h.2)
    · exact Or.inr (Or.inr (ihr h))

theorem bst_iff {T : Type} [LinearOrder T] {d : T} {live : Bool} {l r : STree T} :
    bst (STree.node d live l r) = true ↔
      (∀ x ∈ vals l, x < d) ∧
      (∀ x ∈ vals r, d < x ∨ (x = d ∧ live = false)) ∧
      (bst l = true ∧ bst r = true) := by
  simp [bst, List.all_eq_true, Bool.or_eq_true, Bool.and_eq_true,
    decide_eq_true_eq, Bool.not_eq_true', and_assoc]

theorem mem_vals_insert {T : Type} [LinearOrder T] (t : STree T) (v x : T) :
    x ∈ vals (insert t v).1 → x ∈ vals t ∨ x = v := by
  induction t with
  | nil => simp [insert, vals]
  | node d live l r ihl ihr =>
    intro h
    cases hc : cmp3 v d with
    | lt =>
      simp only [insert, hc, vals_node, List.mem_append, List.mem_cons] at h ⊢
      rcases h with h | h
      · rcases ihl h with h' | h'
        · exact Or.inl (Or.inl h')
        · exact Or.inr h'
      · exact Or.inl (Or.inr h)
    | gt =>
      simp only [insert, hc, vals_node, List.mem_append, List.mem_cons] at h ⊢
      rcases h with h | h | h
      · exact Or.inl (Or.inl h)
      · exact Or.inl (Or.inr (Or.inl h))
      · rcases ihr h with h' | h'
        · exact Or.inl (Or.inr (Or.inr h'))
        · exact Or.inr h'
    | eq =>
      cases live with
      | true => simp only [insert, hc, if_pos rfl] at h; exact Or.inl h
      | false =>
        rw [show insert (STree.node d false l r) v
            = (STree.node d false l (insert r v).1, (insert r v).2) by
          simp [insert, hc]] at h
        simp only [vals_node, List.mem_append, List.mem_cons] at h ⊢
        rcases h with h | h | h
        · exact Or.inl (Or.inl h)
        · exact Or.inl (Or.inr (Or.inl h))
        · rcases ihr h with h' | h'
          · exact Or.inl (Or.inr (Or.inr h'))
          · exact Or.inr h'

theorem mem_vals_delete {T : Type} [LinearOrder T] (t : STree T) (v x : T) :
    x ∈ vals (delete t v).1 → x ∈ vals t := by
  induction t with
  | nil => simp [delete]
  | node d live l r ihl ihr =>
    intro h
    cases hc : cmp3 v d with
    | lt =>
      simp only [delete, hc, vals_node, List.mem_append, List.mem_cons] at h ⊢
      rcases h with h | h
      · exact Or.inl (ihl h)
      · exact Or.inr h
    | gt =>
      simp only [delete, hc, vals_node, List.mem_append, List.mem_cons] at h ⊢
      rcases h with h | h | h
      · exact Or.inl h
      · exact Or.inr (Or.inl h)
      · exact Or.inr (Or.inr (ihr h))
    | eq =>
      cases live with
      | true =>
        cases l with
        | nil =>
          simp only [delete, hc, if_true, vals_node, List.mem_append,
            List.mem_cons] at h ⊢
          exact Or.inr (Or.inr h)
        | node dl ll l1 r1 =>
          cases r with
          | nil =>
            simp only [delete, hc, if_true, vals_node, List.mem_append,
              List.mem_cons] at h ⊢
            exact Or.inl h
          | node dr lr l2 r2 =>
            simpa only [delete, hc, if_true] using h
      | false =>
        rw [show delete (STree.node d false l r) v
            = (STree.node d false l (delete r v).1, (delete r v).2) by
          simp [delete, hc]] at h
        simp only [vals_node, List.mem_append, List.mem_cons] at h ⊢
        rcases h with h | h | h
        · exact Or.inl h
        · exact Or.inr (Or.inl h)
        · exact Or.inr (Or.inr (ihr h))

theorem insert_bst {T : Type} [LinearOrder T] (t : STree T) (v : T)
    (h : bst t = true) : bst (insert t v).1 = true := by
  induction t with
  | nil => simp [insert, bst, vals]
  | node d live l r ihl ihr =>
    rw [bst_iff] at h
    obtain ⟨hl, hr, hbl, hbr⟩ := h
    cases hc : cmp3 v d with
    | lt =>
      have hvd : v < d := cmp3_eq_lt.mp hc
      simp only [insert, hc]
      rw [bst_iff]
      refine ⟨?_, hr, ihl hbl, hbr⟩
      intro x hx
      rcases mem_vals_insert l v x hx with h' | rfl
      · exact hl x h'
      · exact hvd
    | gt =>
      have hdv : d < v := cmp3_eq_gt.mp hc
      simp only [insert, hc]
      rw [bst_iff]
      refine ⟨hl, ?_, hbl, ihr hbr⟩
      intro x hx
      rcases mem_vals_insert r v x hx with h' | rfl
      · exact hr x h'
      · exact Or.inl hdv
    | eq =>
      have hvd : v = d := cmp3_eq_eq.mp hc
      cases live with
      | true =>
        rw [show insert (STree.node d true l r) v
            = (STree.node d true l r, false) by simp [insert, hc]]
        rw [bst_iff]; exact ⟨hl, hr, hbl, hbr⟩
      | false =>
        rw [show insert (STree.node d false l r) v
            = (STree.node d false l (insert r v).1, (insert r v).2) by
          simp [insert, hc]]
        rw [bst_iff]
        refine ⟨hl, ?_, hbl, ihr hbr⟩
        intro x hx
        rcases mem_vals_insert r v x hx with h' | rfl
        · exact hr x h'
        · exact Or.inr ⟨hvd, rfl⟩

theorem delete_bst {T : Type} [LinearOrder T] (t : STree T) (v : T)
    (h : bst t = true) : bst (delete t v).1 = true := by
  induction t with
  | nil => simpa [delete] using h
  | node d live l r ihl ihr =>
    rw [bst_iff] at h
    obtain ⟨hl, hr, hbl, hbr⟩ := h
    cases hc : cmp3 v d with
    | lt =>
      simp only [delete, hc]
      rw [bst_iff]
      exact ⟨fun x hx => hl x (mem_vals_delete l v x hx), hr, ihl hbl, hbr⟩
    | gt =>
      simp only [delete, hc]
      rw [bst_iff]
      exact ⟨hl, fun x hx => hr x (mem_vals_delete r v x hx), hbl, ihr hbr⟩
    | eq =>
      cases live with
      | true =>
        cases l with
        | nil => simpa [delete, hc] using hbr
        | node dl ll l1 r1 =>
          cases r with
          | nil => simpa [delete, hc] using hbl
          | node dr lr l2 r2 =>
            rw [show delete (STree.node d true (STree.node dl ll l1 r1)
                  (STree.node dr lr l2 r2)) v
                = (STree.node d false (STree.node dl ll l1 r1)
                    (STree.node dr lr l2 r2), true) by
              simp [delete, hc]]
            rw [bst_iff]
            refine ⟨hl, ?_, hbl, hbr⟩
            intro x hx
            rcases hr x hx with h' | h'
            · exact Or.inl h'
            · exact Or.inr ⟨h'.1, rfl⟩
      | false =>
        rw [show delete (STree.node d false l r) v
            = (STree.node d false l (delete r v).1, (delete r v).2) by
          simp [delete, hc]]
        rw [bst_iff]
        exact ⟨hl, fun x hx => hr x (mem_vals_delete r v x hx), hbl, ihr hbr⟩

theorem delete_of_not_contains {T : Type} [LinearOrder T] (t : STree T) (v : T)
    (h : v ∉ liveValues t) : delete t v = (t, false) := by
  induction t with
  | nil => simp [delete]
  | node d live l r ihl ihr =>
    rw [mem_liveValues_node] at h
    push_neg at h
    obtain ⟨h1, h2, h3⟩ := h
    cases hc : cmp3 v d with
    | lt => simp [delete, hc, ihl h1]
    | gt => simp [delete, hc, ihr h3]
    | eq =>
      have hvd : v = d := cmp3_eq_eq.mp hc
      cases live with
      | true => exact absurd hvd (h2 rfl)
      | false => simp [delete, hc, ihr h3]

theorem not_mem_liveValues_delete {T : Type} [LinearOrder T] (t : STree T)
    (v : T) (h : bst t = true) : v ∉ liveValues (delete t v).1 := by
  induction t with
  | nil => simp [delete, liveValues]
  | node d live l r ihl ihr =>
    rw [bst_iff] at h
    obtain ⟨hl, hr, hbl, hbr⟩ := h
    cases hc : cmp3 v d with
    | lt =>
      have hvd : v < d := cmp3_eq_lt.mp hc
      simp only [delete, hc]
      rw [mem_liveValues_node]
      push_neg
      refine ⟨ihl hbl, fun _ => ne_of_lt hvd, fun hm => ?_⟩
      rcases hr v (liveValues_subset_vals r v hm) with h' | h'
      · exact absurd hvd (lt_asymm h')
      · exact absurd h'.1 (ne_of_lt hvd)
    | gt =>
      have hdv : d < v := cmp3_eq_gt.mp hc
      simp only [delete, hc]
      rw [mem_liveValues_node]
      push_neg
      refine ⟨fun hm => ?_, fun _ => ne_of_gt hdv, ihr hbr⟩
      exact absurd (hl v (liveValues_subset_vals l v hm)) (lt_asymm hdv)
    | eq =>
      have hvd : v = d := cmp3_eq_eq.mp hc
      cases live with
      | true =>
        have hnr : v ∉ liveValues r := by
          intro hm
          rcases hr v (liveValues_subset_vals r v hm) with h' | h'
          · exact absurd hvd (ne_of_gt h')
          · exact absurd h'.2 (by simp)
        have hnl : v ∉ liveValues l := by
          intro hm
          exact absurd (hl v (liveValues_subset_vals l v hm))
            (by rw [hvd]; exact lt_irrefl d)
        cases l with
        | nil => simpa [delete, hc] using hnr
        | node dl ll l1 r1 =>
          cases r with
          | nil => simpa [delete, hc] using hnl
          | node dr lr l2 r2 =>
            rw [show delete (STree.node d true (STree.node dl ll l1 r1)
                  (STree.node dr lr l2 r2)) v
                = (STree.node d false (STree.node dl ll l1 r1)
                    (STree.node dr lr l2 r2), true) by
              simp [delete, hc]]
            rw [mem_liveValues_node]
            push_neg
            exact ⟨hnl, fun hfalse => absurd hfalse (by simp), hnr⟩
      | false =>
        rw [show delete (STree.node d false l r) v
            = (STree.node d false l (delete r v).1, (delete r v).2) by
          simp [delete, hc]]
        rw [mem_liveValues_node]
        push_neg
        refine ⟨fun hm => ?_, fun hfalse => absurd hfalse (by simp),
          ihr hbr⟩
        exact absurd (hl v (liveValues_subset_vals l v hm))
          (by rw [hvd]; exact lt_irrefl d)

theorem insert_snd_false_iff {T : Type} [LinearOrder T] (t : STree T) (v : T)
    (h : bst t = true) : (insert t v).2 = false ↔ v ∈ liveValues t := by
  induction t with
  | nil => simp [insert, liveValues]
  | node d live l r ihl ihr =>
    rw [bst_iff] at h
    obtain ⟨hl, hr, hbl, hbr⟩ := h
    cases hc : cmp3 v d with
    | lt =>
      have hvd : v < d := cmp3_eq_lt.mp hc
      simp only [insert, hc]
      rw [mem_liveValues_node, ihl hbl]
      constructor
      · exact fun hm => Or.inl hm
      · rintro (hm | hm | hm)
        · exact hm
        · exact absurd hm.2 (ne_of_lt hvd)
        · rcases hr v (liveValues_subset_vals r v hm) with h' | h'
          · exact absurd hvd (lt_asymm h')
          · exact absurd h'.1 (ne_of_lt hvd)
    | gt =>
      have hdv : d < v := cmp3_eq_gt.mp hc
      simp only [insert, hc]
      rw [mem_liveValues_node, ihr hbr]
      constructor
      · exact fun hm => Or.inr (Or.inr hm)
      · rintro (hm | hm | hm)
        · exact absurd (hl v (liveValues_subset_vals l v hm)) (lt_asymm hdv)
        · exact absurd hm.2 (ne_of_gt hdv)
        · exact hm
    | eq =>
      have hvd : v = d := cmp3_eq_eq.mp hc
      cases live with
      | true =>
        rw [show insert (STree.node d true l r) v
            = (STree.node d true l r, false) by simp [insert, hc]]
        rw [mem_liveValues_node]
        simp [hvd]
      | false =>
        rw [show insert (STree.node d false l r) v
            = (STree.node d false l (insert r v).1, (insert r v).2) by
          simp [insert, hc]]
        rw [mem_liveValues_node, ihr hbr]
        constructor
        · exact fun hm => Or.inr (Or.inr hm)
        · rintro (hm | hm | hm)
          · exact absurd (hl v (liveValues_subset_vals l v hm))
              (by rw [hvd]; exact lt_irrefl d)
          · exact absurd hm.1 (by simp)
          · exact hm

theorem mem_liveValues_insert {T : Type} [LinearOrder T] (t : STree T) (v : T)
    (h : (insert t v).2 = true) : v ∈ liveValues (insert t v).1 := by
  induction t with
  | nil => simp [insert, liveValues]
  | node d live l r ihl ihr =>
    cases hc : cmp3 v d with
    | lt =>
      simp only [insert, hc] at h ⊢
      rw [mem_liveValues_node]
      exact Or.inl (ihl h)
    | gt =>
      simp only [insert, hc] at h ⊢
      rw [mem_liveValues_node]
      exact Or.inr (Or.inr (ihr h))
    | eq =>
      cases live with
      | true =>
        rw [show insert (STree.node d true l r) v
            = (STree.node d true l r, false) by simp [insert, hc]] at h
        exact absurd h (by simp)
      | false =>
        rw [show insert (STree.node d false l r) v
            = (STree.node d false l (insert r v).1, (insert r v).2) by
          simp [insert, hc]] at h ⊢
        rw [mem_liveValues_node]
        exact Or.inr (Or.inr (ihr h))

theorem insert_fst_of_false {T : Type} [LinearOrder T] (t : STree T) (v : T)
    (h : (insert t v).2 = false) : (insert t v).1 = t := by
  induction t with
  | nil => simp [insert] at h
  | node d live l r ihl ihr =>
    cases hc : cmp3 v d with
    | lt =>
      simp only [insert, hc] at h ⊢
      rw [ihl h]
    | gt =>
      simp only [insert, hc] at h ⊢
      rw [ihr h]
    | eq =>
      cases live with
      | true =>
        rw [show insert (STree.node d true l r) v
            = (STree.node d true l r, false) by simp [insert, hc]]
      | false =>
        rw [show insert (STree.node d false l r) v
            = (STree.node d false l (insert r v).1, (insert r v).2) by
          simp [insert, hc]] at h ⊢
        rw [ihr h]

theorem sorted_liveValues {T : Type} [LinearOrder T] (t : STree T)
    (h : bst t = true) : (liveValues t).Sorted (· < ·) := by
  induction t with
  | nil => simp [liveValues]
  | node d live l r ihl ihr =>
    rw [bst_iff] at h
    obtain ⟨hl, hr, hbl, hbr⟩ := h
    have hlv : ∀ x ∈ liveValues l, x < d :=
      fun x hx => hl x (liveValues_subset_vals l x hx)
    have hrv : ∀ y ∈ liveValues r, d < y ∨ (y = d ∧ live = false) :=
      fun y hy => hr y (liveValues_subset_vals r y hy)
    show ((liveValues l) ++ ((if live then [d] else []) ++
      liveValues r)).Pairwise (· < ·)
    rw [List.pairwise_append]
    refine ⟨ihl hbl, ?_, ?_⟩
    · cases live with
      | true =>
        rw [if_pos rfl]
        rw [show ([d] ++ liveValues r) = d :: liveValues r by simp,
          List.pairwise_cons]
        refine ⟨fun y hy => ?_, ihr hbr⟩
        rcases hrv y hy with h' | h'
        · exact h'
        · exact absurd h'.2 (by simp)
      | false =>
        rw [if_neg (by simp)]
        simpa using ihr hbr
    · intro x hx y hy
      have hxd : x < d := hlv x hx
      rcases List.mem_append.mp hy with hy' | hy'
      · cases live with
        | true =>
          have : y = d := by simpa using hy'
          exact this ▸ hxd
        | false => simp at hy'
      · rcases hrv y hy' with h' | h'
        · exact lt_trans hxd h'
        · exact h'.1 ▸ hxd

theorem nodup_liveValues {T : Type} [LinearOrder T] (t : STree T)
    (h : bst t = true) : (liveValues t).Nodup :=
  (sorted_liveValues t h).nodup

theorem applyOp_bst {T : Type} [LinearOrder T] (t : STree T) (op : Op T)
    (h : bst t = true) : bst (applyOp t op) = true := by
  cases op with
  | insert v => exact insert_bst t v h
  | find v => exact h
  | delete v => exact delete_bst t v h

theorem foldl_applyOp_bst {T : Type} [LinearOrder T] (ops : List (Op T)) :
    ∀ t : STree T, bst t = true → bst (ops.foldl applyOp t) = true := by
  induction ops with
  | nil => exact fun t h => h
  | cons op ops ih => exact fun t h => ih (applyOp t op) (applyOp_bst t op h)

theorem run_bst {T : Type} [LinearOrder T] (ops : List (Op T)) :
    bst (run ops) = true :=
  foldl_applyOp_bst ops STree.nil rfl

end Model

theorem relaxed_search_root_or_child {T : Type} [LinearOrder T] (d : T)
    (l r : Code.Tree T) (v : T) :
    ∃ n o, Code.relaxed_search (Code.Tree.node d l r) v = Except.ok (n, o) ∧
      (n = Code.Tree.node d l r ∨ n = l ∨ n = r) := by
  cases hc : cmp3 d v with
  | lt =>
    cases l with
    | nil =>
      exact ⟨Code.Tree.node d Code.Tree.nil r, Ordering.lt,
        by simp [Code.relaxed_search, hc], Or.inl rfl⟩
    | node dl l1 r1 =>
      exact ⟨Code.Tree.node dl l1 r1, Ordering.lt,
        by simp [Code.relaxed_search, hc], Or.inr (Or.inl rfl)⟩
  | gt =>
    cases r with
    | nil =>
      exact ⟨Code.Tree.node d l Code.Tree.nil, Ordering.gt,
        by simp [Code.relaxed_search, hc], Or.inl rfl⟩
    | node dr l2 r2 =>
      exact ⟨Code.Tree.node dr l2 r2, Ordering.gt,
        by simp [Code.relaxed_search, hc], Or.inr (Or.inr rfl)⟩
  | eq =>
    exact ⟨Code.Tree.node d l r, Ordering.eq,
      by simp [Code.relaxed_search, hc], Or.inl rfl⟩

theorem isSubtree_self {T : Type} [DecidableEq T] (t : Code.Tree T) :
    Code.isSubtree t t = true := by
  cases t <;> simp [Code.isSubtree]

theorem isSubtree_of_root_or_child {T : Type} [DecidableEq T] {n : Code.Tree T}
    {d : T} {l r : Code.Tree T}
    (h : n = Code.Tree.node d l r ∨ n = l ∨ n = r) :
    Code.isSubtree n (Code.Tree.node d l r) = true := by
  rcases h with rfl | rfl | rfl
  · exact isSubtree_self _
  · simp [Code.isSubtree, isSubtree_self]
  · simp [Code.isSubtree, isSubtree_self]

/-- C1: the claim says `relaxed_search` reports a node holding a value equal
to the target, or else the deepest visited node whose relevant child slot is
empty where the target would attach.  The code contradicts this and its own
doc comment (which promises the node closest to the given value): on the
tree with root 5 and right child 7 (children 6 and 9), searching for 2
returns after a single step the node holding 7 — its value is not 2, both
its child slots are occupied, and the visited root 5 is closer to 2. -/
theorem c1_single_step_not_insertion_point :
    Code.relaxed_search
        (Code.Tree.node 5 Code.Tree.nil
          (Code.Tree.node 7 (Code.Tree.node 6 Code.Tree.nil Code.Tree.nil)
            (Code.Tree.node 9 Code.Tree.nil Code.Tree.nil))) (2 : Nat)
      = Except.ok
          (Code.Tree.node 7 (Code.Tree.node 6 Code.Tree.nil Code.Tree.nil)
            (Code.Tree.node 9 Code.Tree.nil Code.Tree.nil), Ordering.gt) ∧
    Code.dataOf
        (Code.Tree.node 7 (Code.Tree.node 6 Code.Tree.nil Code.Tree.nil)
          (Code.Tree.node 9 Code.Tree.nil Code.Tree.nil)) ≠ some (2 : Nat) ∧
    Code.leftOf
        (Code.Tree.node 7 (Code.Tree.node 6 Code.Tree.nil Code.Tree.nil)
          (Code.Tree.node (9 : Nat) Code.Tree.nil Code.Tree.nil))
      ≠ some Code.Tree.nil ∧
    Code.rightOf
        (Code.Tree.node 7 (Code.Tree.node 6 Code.Tree.nil Code.Tree.nil)
          (Code.Tree.node (9 : Nat) Code.Tree.nil Code.Tree.nil))
      ≠ some Code.Tree.nil :=
  ⟨rfl, by decide, by decide, by decide⟩

/-- C2 counterexample: with root value 5, left child 3, right child 8 and
target 3, the target compares LESS than the current node's value, yet the
walk descends to the RIGHT child (the node holding 8), not the left one:
the code computes `node_value.cmp(target)` and maps `Less` to the left
slot, mirroring the claimed directions. -/
theorem c2_direction_counterexample :
    (3 : Nat) < 5 ∧
    Code.relaxed_search
        (Code.Tree.node 5 (Code.Tree.node 3 Code.Tree.nil Code.Tree.nil)
          (Code.Tree.node 8 Code.Tree.nil Code.Tree.nil)) (3 : Nat)
      = Except.ok
          (Code.Tree.node 8 Code.Tree.nil Code.Tree.nil, Ordering.gt) ∧
    Code.Tree.node (8 : Nat) Code.Tree.nil Code.Tree.nil
      ≠ Code.Tree.node 3 Code.Tree.nil Code.Tree.nil :=
  ⟨by decide, rfl, by decide⟩

/-- The step `relaxed_search` actually takes (the amended reading of C2):
the comparison is `node_value.cmp(target)`, so the walk descends to the
LEFT child when the node's value is less than the target and to the RIGHT
child when it is greater; on equal it stops and reports the current node.
When the chosen child slot is empty the current node is reported. -/
def mirroredStep {T : Type} [LinearOrder T] (d : T) (l r : Code.Tree T)
    (target : T) : Code.Tree T × Ordering :=
  match cmp3 d target with
  | .eq => (Code.Tree.node d l r, .eq)
  | .lt => (if l = Code.Tree.nil then Code.Tree.node d l r else l, .lt)
  | .gt => (if r = Code.Tree.nil then Code.Tree.node d l r else r, .gt)

/-- C2 amended: at the one step the walk performs, the code stops and
reports the current node on an equal comparison, and otherwise descends in
the MIRRORED directions (left when the node's value is less than the
target, right when it is greater), staying at the current node when that
child slot is empty. -/
theorem c2_amended_mirrored_direction {T : Type} [LinearOrder T] (d : T)
    (l r : Code.Tree T) (v : T) :
    Code.relaxed_search (Code.Tree.node d l r) v
      = Except.ok (mirroredStep d l r v) := by
  cases hc : cmp3 d v with
  | lt => cases l <;> simp [Code.relaxed_search, mirroredStep, hc]
  | gt => cases r <;> simp [Code.relaxed_search, mirroredStep, hc]
  | eq => simp [Code.relaxed_search, mirroredStep, hc]

/-- C4 counterexample: on the singleton tree holding 3, `find 5` returns a
guarded reference (to the node holding 3) although no node holds a value
equal to 5 — the source `find` has no `Option` result at all and never
returns `None`. -/
theorem c4_find_counterexample :
    Code.find (Code.Tree.node (3 : Nat) Code.Tree.nil Code.Tree.nil) 5
      = Except.ok (Code.Tree.node 3 Code.Tree.nil Code.Tree.nil) ∧
    (3 : Nat) ≠ 5 :=
  ⟨rfl, by decide⟩

/-- C4 amended: `find` never returns a no-match result.  On an empty tree
the walker's non-null assertion fails (the call panics instead of returning
`None`); on a non-empty tree it returns a guarded reference to whatever node
the single-step walk reports — a node of the tree, match or not. -/
theorem c4_find_amended {T : Type} [LinearOrder T] (t : Code.Tree T) (v : T) :
    (t = Code.Tree.nil ∧
      Code.find t v = Except.error Code.Fault.assertNullCurrent) ∨
    (∃ n, Code.find t v = Except.ok n ∧ Code.isSubtree n t = true) := by
  cases t with
  | nil => exact Or.inl ⟨rfl, rfl⟩
  | node d l r =>
    obtain ⟨n, o, he, hn⟩ := relaxed_search_root_or_child d l r v
    exact Or.inr ⟨n, by rw [Code.find, he]; rfl, isSubtree_of_root_or_child hn⟩

/-- C7: `new()` does produce an empty root slot, but the claimed
consequence fails: `find` on the fresh tree passes the null root straight
into `relaxed_search`, whose documented non-null precondition
(`assert!(!current.is_null())`) fires — a panic, not a no-match return —
and `delete` is `todo!()`, which panics rather than reporting `NotFound`. -/
theorem c7_new_empty_find_asserts :
    (Code.new : Code.Tree Nat) = Code.Tree.nil ∧
    Code.find (Code.new : Code.Tree Nat) 5
      = Except.error Code.Fault.assertNullCurrent ∧
    Code.delete (Code.new : Code.Tree Nat) 5
      = Except.error Code.Fault.todoUnimplemented :=
  ⟨rfl, rfl, rfl⟩

/-- C8: the search walk mutates nothing.  In the state-passing embedding of
`find` (which performs only atomic loads), the tree state — the root slot
and every node's value and child slots — comes back unchanged, and the
guard that is returned is a node of the tree that went in, not a rebuilt
one. -/
theorem c8_find_no_mutation {T : Type} [LinearOrder T] (t : Code.Tree T)
    (v : T) :
    (Code.findSt t v).2 = t ∧
    (∀ g, (Code.findSt t v).1 = Except.ok g → Code.isSubtree g t = true) := by
  refine ⟨rfl, fun g hg => ?_⟩
  cases t with
  | nil => simp [Code.findSt, Code.find, Code.relaxed_search, Except.map] at hg
  | node d l r =>
    obtain ⟨n, o, he, hn⟩ := relaxed_search_root_or_child d l r v
    have : (Code.findSt (Code.Tree.node d l r) v).1 = Except.ok n := by
      show Code.find (Code.Tree.node d l r) v = Except.ok n
      rw [Code.find, he]; rfl
    rw [this] at hg
    cases hg
    exact isSubtree_of_root_or_child hn

/-- C8 witness: on the singleton tree holding 3, `findSt _ 5` leaves the
tree unchanged and its guard is a node of that tree. -/
theorem c8_find_no_mutation_witness :
    (Code.findSt (Code.Tree.node (3 : Nat) Code.Tree.nil Code.Tree.nil) 5).2
      = Code.Tree.node 3 Code.Tree.nil Code.Tree.nil ∧
    Code.isSubtree (Code.Tree.node (3 : Nat) Code.Tree.nil Code.Tree.nil)
      (Code.Tree.node 3 Code.Tree.nil Code.Tree.nil) = true :=
  ⟨(c8_find_no_mutation (Code.Tree.node 3 Code.Tree.nil Code.Tree.nil) 5).1,
    (c8_find_no_mutation (Code.Tree.node 3 Code.Tree.nil Code.Tree.nil) 5).2
      (Code.Tree.node 3 Code.Tree.nil Code.Tree.nil) rfl⟩

/-- C10: a single call to `relaxed_search` on a non-empty tree returns
either the node it was given as root or one of that node's two direct
children — it descends at most one level and never loops or recurses. -/
theorem c10_single_descent {T : Type} [LinearOrder T] (d : T)
    (l r : Code.Tree T) (v : T) :
    ∃ n o, Code.relaxed_search (Code.Tree.node d l r) v = Except.ok (n, o) ∧
      (n = Code.Tree.node d l r ∨ n = l ∨ n = r) :=
  relaxed_search_root_or_child d l r v

/-- C3 (against the spec-modelled insert — the source `push` is `todo!()`
beyond the empty-root compare-and-swap): on a tree satisfying the ordering
invariant, insert returns `false` (`DuplicateValue`) exactly when a live
node with an equal value already exists; when it returns `true` the new
value is linked as a live node, and when it returns `false` the tree is
left unchanged. -/
theorem c3_insert_duplicate_iff {T : Type} [LinearOrder T] (t : Model.STree T)
    (v : T) (h : Model.bst t = true) :
    ((Model.insert t v).2 = false ↔ Model.containsLive t v = true) ∧
    ((Model.insert t v).2 = true →
      Model.containsLive (Model.insert t v).1 v = true) ∧
    ((Model.insert t v).2 = false → (Model.insert t v).1 = t) := by
  refine ⟨?_, ?_, fun hf => Model.insert_fst_of_false t v hf⟩
  · rw [show Model.containsLive t v = decide (v ∈ Model.liveValues t) from rfl,
      decide_eq_true_iff]
    exact Model.insert_snd_false_iff t v h
  · intro ht
    rw [show Model.containsLive (Model.insert t v).1 v
        = decide (v ∈ Model.liveValues (Model.insert t v).1) from rfl,
      decide_eq_true_iff]
    exact Model.mem_liveValues_insert t v ht

/-- C3 witness: the scenario on the tree `{5}` (the state after `insert 5`
on an empty tree, which returned `true`): a second `insert 5` returns
`false` because a live 5 is present. -/
theorem c3_insert_duplicate_iff_witness :
    Model.bst (Model.STree.node (5 : Nat) true Model.STree.nil
      Model.STree.nil) = true ∧
    (((Model.insert (Model.STree.node (5 : Nat) true Model.STree.nil
        Model.STree.nil) 5).2 = false ↔
      Model.containsLive (Model.STree.node (5 : Nat) true Model.STree.nil
        Model.STree.nil) 5 = true) ∧
    ((Model.insert (Model.STree.node (5 : Nat) true Model.STree.nil
        Model.STree.nil) 5).2 = true →
      Model.containsLive (Model.insert (Model.STree.node (5 : Nat) true
        Model.STree.nil Model.STree.nil) 5).1 5 = true) ∧
    ((Model.insert (Model.STree.node (5 : Nat) true Model.STree.nil
        Model.STree.nil) 5).2 = false →
      (Model.insert (Model.STree.node (5 : Nat) true Model.STree.nil
        Model.STree.nil) 5).1
        = Model.STree.node 5 true Model.STree.nil Model.STree.nil)) :=
  ⟨by decide,
    c3_insert_duplicate_iff
      (Model.STree.node 5 true Model.STree.nil Model.STree.nil) 5 (by decide)⟩

/-- C5 (against the spec-modelled delete — the source `delete` is
`todo!()`): on a tree satisfying the ordering invariant, delete reports
`NotFound` (`false`) whenever no live node holds the value, and after a
successful delete a second delete of the same value also reports
`NotFound`. -/
theorem c5_delete_notfound {T : Type} [LinearOrder T] (t : Model.STree T)
    (v : T) (h : Model.bst t = true) :
    (Model.containsLive t v = false → (Model.delete t v).2 = false) ∧
    ((Model.delete t v).2 = true →
      (Model.delete (Model.delete t v).1 v).2 = false) := by
  constructor
  · intro hc
    have hm : v ∉ Model.liveValues t := by
      simpa [Model.containsLive] using hc
    rw [Model.delete_of_not_contains t v hm]
  · intro _
    have hm : v ∉ Model.liveValues (Model.delete t v).1 :=
      Model.not_mem_liveValues_delete t v h
    rw [Model.delete_of_not_contains (Model.delete t v).1 v hm]

/-- C5 witness: on the tree `{5}`, delete 5 succeeds and a second delete 5
returns `NotFound`; deleting the absent 7 returns `NotFound` directly. -/
theorem c5_delete_notfound_witness :
    Model.bst (Model.STree.node (5 : Nat) true Model.STree.nil
      Model.STree.nil) = true ∧
    ((Model.containsLive (Model.STree.node (5 : Nat) true Model.STree.nil
        Model.STree.nil) 7 = false →
      (Model.delete (Model.STree.node (5 : Nat) true Model.STree.nil
        Model.STree.nil) 7).2 = false) ∧
    ((Model.delete (Model.STree.node (5 : Nat) true Model.STree.nil
        Model.STree.nil) 7).2 = true →
      (Model.delete (Model.delete (Model.STree.node (5 : Nat) true
        Model.STree.nil Model.STree.nil) 7).1 7).2 = false)) :=
  ⟨by decide,
    c5_delete_notfound
      (Model.STree.node 5 true Model.STree.nil Model.STree.nil) 7 (by decide)⟩

/-- C6 counterexample: starting from the empty tree, the operation sequence
insert 5, insert 3, insert 8, delete 5, insert 5 leaves the strict ordering
invariant exactly as the claim states it FALSE: delete 5 tombstones the
two-child root (deferred unlinking, per the spec), and the re-insert of 5
attaches a live 5 inside the tombstoned root's right subtree, where the
claim demands strictly greater values. -/
theorem c6_strict_invariant_counterexample :
    Model.strictBst (Model.run
      [Model.Op.insert (5 : Nat), Model.Op.insert 3, Model.Op.insert 8,
        Model.Op.delete 5, Model.Op.insert 5]) = false := by decide

/-- C6 amended: every sequence of insert, find and delete operations
starting from the empty tree maintains the tombstone-aware ordering
invariant — left-subtree values strictly less than the node's value,
right-subtree values strictly greater except that a tombstoned node may
carry an equal value in its right subtree (a reinsertion below a logically
deleted duplicate) — and no two live nodes hold equal values. -/
theorem c6_invariant_amended {T : Type} [LinearOrder T]
    (ops : List (Model.Op T)) :
    Model.bst (Model.run ops) = true ∧
      (Model.liveValues (Model.run ops)).Nodup :=
  ⟨Model.run_bst ops, Model.nodup_liveValues _ (Model.run_bst ops)⟩

end LFTree

